import Mathlib

/-!
Verification of the DAGA (Deniable Anonymous Group Authentication) implementation.

The repository implements DAGA over the prime-order Ed25519 subgroup.  The shallow
embedding below models that group as `Multiplicative (ZMod q)` for a prime `q`
(every cyclic group of prime order is of this shape), scalars as `ZMod q`, and the
byte strings fed to hashes and signatures as `List ℕ` (one entry per marshalled
field).  The SHA-512 digest, the `Scalar().SetBytes` reduction and the
`Scalar().Pick(suite.Cipher(...))` derivation are modelled by three fixed
executable functions; `SetBytes ∘ sha512` and `Pick ∘ Cipher ∘ sha512` are distinct
functions of the digest (as they are in the dedis crypto library), which, like real
hash functions, agree on some inputs.  Schnorr signatures are modelled ideally: a
signature records the signing key and the signed bytes, and verification succeeds
exactly for the matching public key and message.

Functions of the `daga` package carry no suffix; functions of the older
`dagapython` package carry the suffix `Py`.  Go code that mutates a value through a
pointer is embedded as a function returning the (result, final state) pair, so that
error returns leave the state component unchanged exactly when the Go code does.
Out-of-range slice accesses, which panic in Go, are modelled by `List.getD` with a
default (for reads that cannot fail on the inputs the theorems quantify over) or as
verification failure (for signer indexes taken from attacker-supplied data).
-/

set_option maxRecDepth 4000

/-- A point of the prime-order group, identified with `Multiplicative (ZMod q)`. -/
abbrev Pt (q : ℕ) := Multiplicative (ZMod q)

/-- `suite.Point().Mul(base, s)`: scalar multiplication, written as exponentiation
of the multiplicative model. -/
def pointMul (q : ℕ) (p : Pt q) (s : ZMod q) : Pt q :=
  Multiplicative.ofAdd (s * Multiplicative.toAdd p)

/-- The fixed generator `g` (`suite.Point().Mul(nil, suite.Scalar().One())`). -/
def gBase (q : ℕ) : Pt q := Multiplicative.ofAdd 1

/-- Marshalled bytes of a point (`MarshalBinary`), one abstract entry. -/
def pointBytes (q : ℕ) (p : Pt q) : List ℕ := [(Multiplicative.toAdd p).val]

/-- Marshalled bytes of a scalar (`MarshalBinary`). -/
def scalarBytes (q : ℕ) (s : ZMod q) : List ℕ := [s.val]

/-- Bytes of `strconv.Itoa(j)` appended to a transcript. -/
def indexBytes (j : ℕ) : List ℕ := [j]

/-- `PointArrayToBytes`: concatenation of the points' marshalled bytes. -/
def pointsBytes (q : ℕ) (l : List (Pt q)) : List ℕ := (l.map (pointBytes q)).flatten

/-- `ScalarArrayToBytes`: concatenation of the scalars' marshalled bytes. -/
def scalarsBytes (q : ℕ) (l : List (ZMod q)) : List ℕ := (l.map (scalarBytes q)).flatten

/-- Model of the SHA-512 digest of a byte string: a fixed executable compression. -/
def sha512B (l : List ℕ) : List ℕ := [l.foldl (fun a b => 7 * a + b + 3) 0]

/-- Model of `suite.Scalar().SetBytes(digest)`: reduce the digest bytes mod `q`. -/
def setBytesScalar (q : ℕ) (l : List ℕ) : ZMod q :=
  ((l.foldl (fun a b => 256 * a + b) 0 : ℕ) : ZMod q)

/-- Model of `suite.Scalar().Pick(suite.Cipher(digest))`: a scalar derived from the
digest by a different fixed function than `setBytesScalar`. -/
def pickCipherScalar (q : ℕ) (l : List ℕ) : ZMod q :=
  let d := l.foldl (fun a b => 256 * a + b) 0
  ((d ^ 2 + d + 6 : ℕ) : ZMod q)

/-- Client-side scalar derivation `SetBytes(sha512(point))`, used in
`CreateRequest` of dagapython (client.go line 58). -/
def hashSB (q : ℕ) (p : Pt q) : ZMod q := setBytesScalar q (sha512B (pointBytes q p))

/-- Server-side scalar derivation `Pick(Cipher(sha512(points)))`, used for the
per-request secret and for every Fiat-Shamir challenge in server.go. -/
def hashPC (q : ℕ) (l : List (Pt q)) : ZMod q :=
  pickCipherScalar q (sha512B (pointsBytes q l))

/-- `suite.Scalar().Inv`: the modular inverse, computed as `a^(q-2)` so that it
reduces inside the kernel; for a prime modulus this is the field inverse (the
lemma `scInv_eq_inv`), with `scInv q 0 = 0` for `q > 2` matching the `0⁻¹ = 0`
convention. -/
def scInv (q : ℕ) (a : ZMod q) : ZMod q := a ^ (q - 2)

/-- Idealised Schnorr signature: records the signing key and the message. -/
structure SchnorrSig (q : ℕ) where
  priv : ZMod q
  msg : List ℕ
deriving DecidableEq

/-- `ECDSASign(priv, msg)` (actually a Schnorr signature in the source). -/
def ecdsaSign (q : ℕ) (priv : ZMod q) (m : List ℕ) : SchnorrSig q := ⟨priv, m⟩

/-- `ECDSAVerify(pub, msg, sig)`: succeeds exactly for the matching key and bytes. -/
def ecdsaVerify (q : ℕ) (pub : Pt q) (m : List ℕ) (sg : SchnorrSig q) : Bool :=
  (pointMul q (gBase q) sg.priv == pub) && (sg.msg == m)

/-- `context.G.Y[idx]` followed by `ECDSAVerify`; the out-of-range access (a Go
panic) is modelled as verification failure. -/
def verifySigAt (q : ℕ) (Y : List (Pt q)) (idx : ℕ) (m : List ℕ) (sg : SchnorrSig q) : Bool :=
  if Y.length ≤ idx then false else ecdsaVerify q (Y.getD idx 1) m sg

/-- `Members` of the daga package: client and server public keys. -/
structure Members (q : ℕ) where
  X : List (Pt q)
  Y : List (Pt q)
deriving DecidableEq

/-- `ContextEd25519`: public keys, per-round commitments `R`, generators `H`. -/
structure ContextEd (q : ℕ) where
  G : Members q
  R : List (Pt q)
  H : List (Pt q)
deriving DecidableEq

/-- `ClientProof`: challenge `cs`, commitments `t`, challenges `c`, responses `r`. -/
structure ClientProof (q : ℕ) where
  cs : ZMod q
  t : List (Pt q)
  c : List (ZMod q)
  r : List (ZMod q)
deriving DecidableEq

/-- `ClientMessage` (field `sArray` is named `S` in dagapython). -/
structure ClientMessage (q : ℕ) where
  context : ContextEd q
  sArray : List (Pt q)
  t0 : Pt q
  proof : ClientProof q
deriving DecidableEq

/-- `serverSignature`: a signature together with the signer's index. -/
structure ServerSig (q : ℕ) where
  index : ℕ
  sig : SchnorrSig q
deriving DecidableEq

/-- `Challenge`: the collective challenge and the round-robin signatures. -/
structure ChallengeMsg (q : ℕ) where
  cs : ZMod q
  sigs : List (ServerSig q)
deriving DecidableEq

/-- `serverProof`: `r2 = none` marks a misbehaviour proof (`r2 == nil` in Go). -/
structure ServerProofMsg (q : ℕ) where
  t1 : Pt q
  t2 : Pt q
  t3 : Pt q
  c : ZMod q
  r1 : ZMod q
  r2 : Option (ZMod q)
deriving DecidableEq

/-- `ServerMessage`: the request plus the append-only hop log. -/
structure ServerMessage (q : ℕ) where
  request : ClientMessage q
  tags : List (Pt q)
  proofs : List (ServerProofMsg q)
  indexes : List ℕ
  sigs : List (ServerSig q)
deriving DecidableEq

/-- `Server`: private key, index and per-round secret `r`. -/
structure ServerState (q : ℕ) where
  priv : ZMod q
  index : ℕ
  r : ZMod q
deriving DecidableEq

/-- Default proof used for modelled out-of-range reads. -/
def dproof (q : ℕ) : ServerProofMsg q := ⟨1, 1, 1, 0, 0, none⟩

/-- Default signature used for modelled out-of-range reads. -/
def dsig (q : ℕ) : ServerSig q := ⟨0, ⟨0, []⟩⟩

/-- `ContextEd25519.ToBytes`: `X ‖ Y ‖ H ‖ R` (daga.go lines 136-162). -/
def ContextEd.toBytes (q : ℕ) (ctx : ContextEd q) : List ℕ :=
  pointsBytes q ctx.G.X ++ pointsBytes q ctx.G.Y ++ pointsBytes q ctx.H ++ pointsBytes q ctx.R

/-- `ClientProof.ToBytes`: `cs ‖ t ‖ c ‖ r`. -/
def ClientProof.toBytes (q : ℕ) (p : ClientProof q) : List ℕ :=
  scalarBytes q p.cs ++ pointsBytes q p.t ++ scalarsBytes q p.c ++ scalarsBytes q p.r

/-- `ClientMessage.ToBytes`: `context ‖ S ‖ T₀ ‖ proof`. -/
def ClientMessage.toBytes (q : ℕ) (m : ClientMessage q) : List ℕ :=
  ContextEd.toBytes q m.context ++ pointsBytes q m.sArray ++ pointBytes q m.t0 ++
    ClientProof.toBytes q m.proof

/-- `serverProof.ToBytes`: `t1 ‖ t2 ‖ t3 ‖ c ‖ r1` and `‖ r2` unless misbehaving. -/
def ServerProofMsg.toBytes (q : ℕ) (p : ServerProofMsg q) : List ℕ :=
  pointBytes q p.t1 ++ pointBytes q p.t2 ++ pointBytes q p.t3 ++ scalarBytes q p.c ++
    scalarBytes q p.r1 ++ (match p.r2 with | none => [] | some r2 => scalarBytes q r2)


/-- The inner loop of `CreateRequest` building the commitments (dagapython
client.go lines 63-71): `n+1` iterations emit `g^exp`, multiplying `exp` by the
next shared secret in every iteration but the last; returns the built list and
the final exponent `s`. -/
def commitChain (q : ℕ) (exp : ZMod q) : List (ZMod q) → List (Pt q) × ZMod q
  | [] => ([pointMul q (gBase q) exp], exp)
  | σ :: rest =>
    let out := commitChain q (exp * σ) rest
    (pointMul q (gBase q) exp :: out.1, out.2)

/-- `CreateRequest` of dagapython/client.go (lines 36-81), with the ephemeral
scalar `z` (drawn from the RNG in Go) passed explicitly.  Returns `(T0, S, s)`. -/
def CreateRequestPy (q : ℕ) (ctx : ContextEd q) (idx : ℕ) (z : ZMod q) :
    Pt q × List (Pt q) × ZMod q :=
  let Z := pointMul q (gBase q) z
  let shared : List (ZMod q) := ctx.G.Y.map (fun Yj => hashSB q (pointMul q Yj z))
  let exp0 : ZMod q := shared.foldl (fun e σ => e * σ) 1
  let T0 := pointMul q (ctx.H.getD idx 1) exp0
  let out := commitChain q 1 shared
  (T0, Z :: out.1, out.2)

/-- `GenerateProofResponses` of dagapython/client.go (lines 122-160): verify every
challenge signature, then build `c` and `r`.  The client is `(idx, priv)`. -/
def GenerateProofResponsesPy (q : ℕ) (ctx : ContextEd q) (idx : ℕ) (priv : ZMod q)
    (s : ZMod q) (ch : ChallengeMsg q) (v w : List (ZMod q)) :
    Except Unit (List (ZMod q) × List (ZMod q)) :=
  let msgB := scalarBytes q ch.cs
  if ch.sigs.all (fun sg => verifySigAt q ctx.G.Y sg.index msgB sg.sig) then
    let sum := w.foldl (fun a b => a + b) 0
    let c := w.set idx (ch.cs - sum)
    let ci := c.getD idx 0
    let r := (v.set (2 * idx) (v.getD (2 * idx) 0 - ci * priv)).set (2 * idx + 1)
      (v.getD (2 * idx + 1) 0 - ci * s)
    Except.ok (c, r)
  else Except.error ()

/-- `VerifyClientProof` of dagapython/client.go (lines 163-209): length checks
against the client count, the three verification equations per clause (reading
`S[len(S)-1]`), and the challenge-sum check.  The generator position `S[1]` is
never inspected. -/
def VerifyClientProofPy (q : ℕ) (msg : ClientMessage q) : Bool :=
  let n := msg.context.G.X.length
  if msg.proof.c.length ≠ n then false
  else if msg.proof.r.length ≠ 2 * n then false
  else if msg.proof.t.length ≠ 3 * n then false
  else
    ((List.range n).all (fun i =>
      (pointMul q (msg.context.G.X.getD i 1) (msg.proof.c.getD i 0) *
          pointMul q (gBase q) (msg.proof.r.getD (2 * i) 0) ==
        msg.proof.t.getD (3 * i) 1) &&
      (pointMul q (msg.sArray.getD (msg.sArray.length - 1) 1) (msg.proof.c.getD i 0) *
          pointMul q (gBase q) (msg.proof.r.getD (2 * i + 1) 0) ==
        msg.proof.t.getD (3 * i + 1) 1) &&
      (pointMul q msg.t0 (msg.proof.c.getD i 0) *
          pointMul q (msg.context.H.getD i 1) (msg.proof.r.getD (2 * i + 1) 0) ==
        msg.proof.t.getD (3 * i + 2) 1))) &&
    (msg.proof.c.foldl (fun a b => a + b) 0 == msg.proof.cs)

/-- The Go expression `msg.S[0] != suite.Point().Mul(nil, suite.Scalar().One())`
in `ValidateClientMessage` (dagapython/client.go line 221) compares two interface
values whose dynamic type is a pointer; the right-hand side is freshly allocated,
so the inequality holds for every message and the branch is always taken. -/
def goFreshPointerNeq : Bool := true

/-- `ValidateClientMessage` of dagapython/client.go (lines 212-233).  After the
length check on `S` it tests `msg.S[0] != g` by interface (pointer) inequality,
which always succeeds, so the function returns `false` on every input; the
remaining checks (`T0` and `cs` non-nil are unrepresentable here; note `|c|` is
compared against the server count `j`) are dead code. -/
def ValidateClientMessagePy (q : ℕ) (msg : ClientMessage q) : Bool :=
  let i := msg.context.G.X.length
  let j := msg.context.G.Y.length
  if msg.sArray.length ≠ j + 2 then false
  else if goFreshPointerNeq then false
  else if msg.proof.c.length ≠ j ∨ msg.proof.r.length ≠ 2 * i ∨ msg.proof.t.length ≠ 3 * i then
    false
  else true

/-- Modelled from the spec: `ValidateClientMessage` of the daga package is not
under src (only its callers in daga/server.go and its tests are); spec §3
invariants (2)-(3): `|S| = n + 2`, `S[1] = g`, `T₀` and `cs` present (automatic
here), `|t| = 3m`, `|c| = m`, `|r| = 2m`. -/
def ValidateClientMessage (q : ℕ) (msg : ClientMessage q) : Bool :=
  let m := msg.context.G.X.length
  let n := msg.context.G.Y.length
  (msg.sArray.length == n + 2) && (msg.sArray.getD 1 1 == gBase q) &&
    (msg.proof.t.length == 3 * m) && (msg.proof.c.length == m) &&
    (msg.proof.r.length == 2 * m)

/-- Modelled from the spec: `verifyClientProof` of the daga package is not under
src (only its callers and tests are); spec §4.2 `VerifyClientProof`: the shape
invariants and `S[1] = g` hold, `Σ c = cs`, and for every clause `k` the three
equations `t[3k] = X_k^{c_k}·g^{r_{2k}}`, `t[3k+1] = S[n+1]^{c_k}·g^{r_{2k+1}}`,
`t[3k+2] = T₀^{c_k}·h_k^{r_{2k+1}}`. -/
def verifyClientProof (q : ℕ) (msg : ClientMessage q) : Bool :=
  let n := msg.context.G.Y.length
  ValidateClientMessage q msg &&
    (msg.proof.c.foldl (fun a b => a + b) 0 == msg.proof.cs) &&
    (List.range msg.context.G.X.length).all (fun k =>
      (pointMul q (msg.context.G.X.getD k 1) (msg.proof.c.getD k 0) *
          pointMul q (gBase q) (msg.proof.r.getD (2 * k) 0) ==
        msg.proof.t.getD (3 * k) 1) &&
      (pointMul q (msg.sArray.getD (n + 1) 1) (msg.proof.c.getD k 0) *
          pointMul q (gBase q) (msg.proof.r.getD (2 * k + 1) 0) ==
        msg.proof.t.getD (3 * k + 1) 1) &&
      (pointMul q msg.t0 (msg.proof.c.getD k 0) *
          pointMul q (msg.context.H.getD k 1) (msg.proof.r.getD (2 * k + 1) 0) ==
        msg.proof.t.getD (3 * k + 2) 1))

/-- `Tprevious` as computed in server.go: the last tag, or `T₀` when no server has
processed the request yet. -/
def lastTag (q : ℕ) (msg : ServerMessage q) : Pt q :=
  match msg.tags.getLast? with
  | none => msg.request.t0
  | some t => t

/-- Bytes appended to the transcript for hop `i`:
`tags[i] ‖ proofs[i] ‖ ascii(indexes[i])` (server.go lines 204-217). -/
def hopBytes (q : ℕ) (msg : ServerMessage q) (i : ℕ) : List ℕ :=
  pointBytes q (msg.tags.getD i 1) ++ ServerProofMsg.toBytes q (msg.proofs.getD i (dproof q)) ++
    indexBytes (msg.indexes.getD i 0)

/-- The signed transcript after `k` hops: the request bytes followed by the first
`k` hops' bytes. -/
def transcriptBytes (q : ℕ) (msg : ServerMessage q) (k : ℕ) : List ℕ :=
  ClientMessage.toBytes q msg.request ++ ((List.range k).map (hopBytes q msg)).flatten

/-- The signature-chain check of server.go lines 198-224: `sigs[i]` must verify
under `Y[sigs[i].index]` over the transcript of the first `i+1` hops. -/
def verifyHopSigs (q : ℕ) (ctx : ContextEd q) (msg : ServerMessage q) : Bool :=
  (List.range msg.indexes.length).all (fun i =>
    verifySigAt q ctx.G.Y (msg.sigs.getD i (dsig q)).index (transcriptBytes q msg (i + 1))
      (msg.sigs.getD i (dsig q)).sig)

/-- `verifyServerProof` of daga/server.go (lines 382-446): recompute `t1,t2,t3`
from the responses — all reads of `R` and `S` use `index = msg.indexes[i]` — and
compare the Fiat-Shamir hash with the proof's `c`. -/
def verifyServerProof (q : ℕ) (ctx : ContextEd q) (i : ℕ) (msg : ServerMessage q) : Bool :=
  if msg.proofs.length ≤ i then false
  else
    let prf := msg.proofs.getD i (dproof q)
    match prf.r2 with
    | none => false
    | some r2 =>
      let index := msg.indexes.getD i 0
      let Tprev := if i = 0 then msg.request.t0 else msg.tags.getD (i - 1) 1
      let t1 := pointMul q Tprev prf.r1 / pointMul q (msg.tags.getD i 1) r2
      let t2 := pointMul q (gBase q) prf.r1 * pointMul q (ctx.R.getD index 1) prf.c
      let t3 := pointMul q (msg.request.sArray.getD (index + 1) 1) r2 *
        pointMul q (msg.request.sArray.getD (index + 2) 1) prf.c
      let c := hashPC q [Tprev, msg.tags.getD i 1, ctx.R.getD index 1, gBase q,
        msg.request.sArray.getD (index + 2) 1, msg.request.sArray.getD (index + 1) 1, t1, t2, t3]
      c == prf.c

/-- `VerifyServerProof` of dagapython/server.go (lines 351-413): `t2` uses
`R[msg.indexes[i]]`, but `t3` and the Fiat-Shamir hash use the hop position `i`
(`R[i]`, `S[i+1]`, `S[i+2]`). -/
def VerifyServerProofPy (q : ℕ) (ctx : ContextEd q) (i : ℕ) (msg : ServerMessage q) : Bool :=
  if msg.proofs.length ≤ i then false
  else
    let prf := msg.proofs.getD i (dproof q)
    match prf.r2 with
    | none => false
    | some r2 =>
      let Tprev := if i = 0 then msg.request.t0 else msg.tags.getD (i - 1) 1
      let t1 := pointMul q Tprev prf.r1 / pointMul q (msg.tags.getD i 1) r2
      let t2 := pointMul q (gBase q) prf.r1 *
        pointMul q (ctx.R.getD (msg.indexes.getD i 0) 1) prf.c
      let t3 := pointMul q (msg.request.sArray.getD (i + 1) 1) r2 *
        pointMul q (msg.request.sArray.getD (i + 2) 1) prf.c
      let c := hashPC q [Tprev, msg.tags.getD i 1, ctx.R.getD i 1, gBase q,
        msg.request.sArray.getD (i + 2) 1, msg.request.sArray.getD (i + 1) 1, t1, t2, t3]
      c == prf.c

/-- `verifyMisbehavingProof` of daga/server.go (lines 495-543). -/
def verifyMisbehavingProof (q : ℕ) (ctx : ContextEd q) (i : ℕ) (prf : ServerProofMsg q)
    (Z : Pt q) : Bool :=
  if ctx.G.Y.length ≤ i then false
  else if prf.r2.isSome then false
  else
    let t1 := pointMul q Z prf.r1 * pointMul q prf.t3 prf.c
    let t2 := pointMul q (gBase q) prf.r1 * pointMul q (ctx.G.Y.getD i 1) prf.c
    let c := hashPC q [prf.t3, Z, ctx.G.Y.getD i 1, gBase q, t1, t2]
    c == prf.c

/-- `generateServerProof` of daga/server.go (lines 305-379), with the witnesses
`v1, v2` (drawn from the RNG in Go) passed explicitly; `s` is the recovered
per-request secret and `T` the new tag. -/
def generateServerProof (q : ℕ) (ctx : ContextEd q) (srv : ServerState q) (s : ZMod q)
    (T : Pt q) (v1 v2 : ZMod q) (msg : ServerMessage q) : ServerProofMsg q :=
  let Tprev := lastTag q msg
  let t1 := pointMul q Tprev v1 / pointMul q T v2
  let t2 := pointMul q (gBase q) v1
  let t3 := pointMul q (msg.request.sArray.getD (srv.index + 1) 1) v2
  let c := hashPC q [Tprev, T, ctx.R.getD srv.index 1, gBase q,
    msg.request.sArray.getD (srv.index + 2) 1, msg.request.sArray.getD (srv.index + 1) 1,
    t1, t2, t3]
  ⟨t1, t2, t3, c, v1 - c * srv.r, some (v2 - c * s)⟩

/-- `generateMisbehavingProof` of daga/server.go (lines 449-492), with the witness
`v` passed explicitly; `Z = request.S[0]`. -/
def generateMisbehavingProof (q : ℕ) (ctx : ContextEd q) (srv : ServerState q) (Z : Pt q)
    (v : ZMod q) : ServerProofMsg q :=
  let Zs := pointMul q Z srv.priv
  let t1 := pointMul q Z v
  let t2 := pointMul q (gBase q) v
  let c := hashPC q [Zs, Z, ctx.G.Y.getD srv.index 1, gBase q, t1, t2]
  ⟨t1, t2, Zs, c, v - c * srv.priv, none⟩

/-- The prior-proof check of server.go lines 232-244: a proof with `r2 = nil` is
verified as a misbehaviour proof at the hop position `i`, any other as a standard
server proof. -/
def verifyPriorProofs (q : ℕ) (ctx : ContextEd q) (msg : ServerMessage q) : Bool :=
  (List.range msg.proofs.length).all (fun i =>
    match (msg.proofs.getD i (dproof q)).r2 with
    | none => verifyMisbehavingProof q ctx i (msg.proofs.getD i (dproof q))
        (msg.request.sArray.getD 0 1)
    | some _ => verifyServerProof q ctx i msg)

/-- Error values surfaced by the embedded daga functions. -/
inductive DErr where
  | invalidRequest
  | invalidMessage
  | tooManyCalls
  | badSignature
  | badClientProof
  | badServerProof
  | duplicateSignature
  | challengeMismatch
deriving DecidableEq

/-- `ServerProtocol` of daga/server.go (lines 183-302).  The Go function mutates
`msg` through a pointer; the embedding returns the (result, final message) pair,
and all four appends happen only after every check and the signature succeeded.
The proof witnesses `v1, v2` (RNG in Go) are passed explicitly. -/
def ServerProtocol (q : ℕ) (ctx : ContextEd q) (srv : ServerState q) (v1 v2 : ZMod q)
    (msg : ServerMessage q) : Except DErr Unit × ServerMessage q :=
  if ¬ ValidateClientMessage q msg.request then (Except.error DErr.invalidRequest, msg)
  else if ¬ (msg.indexes.length = msg.proofs.length ∧ msg.proofs.length = msg.tags.length ∧
      msg.tags.length = msg.sigs.length) then (Except.error DErr.invalidMessage, msg)
  else if ctx.G.Y.length ≤ msg.indexes.length then (Except.error DErr.tooManyCalls, msg)
  else if ¬ verifyHopSigs q ctx msg then (Except.error DErr.badSignature, msg)
  else if ¬ verifyClientProof q msg.request then (Except.error DErr.badClientProof, msg)
  else if ¬ verifyPriorProofs q ctx msg then (Except.error DErr.badServerProof, msg)
  else
    let σ := hashPC q [pointMul q (msg.request.sArray.getD 0 1) srv.priv]
    let honest := msg.request.sArray.getD (srv.index + 2) 1 ==
      pointMul q (msg.request.sArray.getD (srv.index + 1) 1) σ
    let T := if honest then pointMul q (lastTag q msg) (srv.r * scInv q σ) else (1 : Pt q)
    let prf := if honest then generateServerProof q ctx srv σ T v1 v2 msg
      else generateMisbehavingProof q ctx srv (msg.request.sArray.getD 0 1) v1
    let data := transcriptBytes q msg msg.indexes.length ++ pointBytes q T ++
      ServerProofMsg.toBytes q prf ++ indexBytes srv.index
    let out : ServerMessage q :=
      { request := msg.request
        tags := msg.tags ++ [T]
        proofs := msg.proofs ++ [prf]
        indexes := msg.indexes ++ [srv.index]
        sigs := msg.sigs ++ [⟨srv.index, ecdsaSign q srv.priv data⟩] }
    (Except.ok (), out)

/-- `InitializeServerMessage` of daga/server.go (lines 175-180). -/
def InitializeServerMessage (q : ℕ) (request : ClientMessage q) : ServerMessage q :=
  { request := request, tags := [], proofs := [], indexes := [], sigs := [] }

/-- The signature-and-duplicate loop of `CheckUpdateChallenge` (server.go lines
143-154), with the set of already-encountered signer indexes made explicit. -/
def checkSigsLoop (q : ℕ) (Y : List (Pt q)) (m : List ℕ) (seen : List ℕ) :
    List (ServerSig q) → Except DErr Unit
  | [] => Except.ok ()
  | sg :: rest =>
    if sg.index ∈ seen then Except.error DErr.duplicateSignature
    else if ¬ verifySigAt q Y sg.index m sg.sig then Except.error DErr.badSignature
    else checkSigsLoop q Y m (sg.index :: seen) rest

/-- `CheckUpdateChallenge` of daga/server.go (lines 137-172); the dagapython
version (dagapython/server.go lines 112-147) is textually identical.  `cs` is the
challenge the server recomputed itself; the function mutates `challenge.sigs`
through a pointer, so the embedding returns the (result, final challenge) pair. -/
def CheckUpdateChallenge (q : ℕ) (ctx : ContextEd q) (srv : ServerState q) (cs : ZMod q)
    (ch : ChallengeMsg q) : Except DErr Unit × ChallengeMsg q :=
  let m := scalarBytes q ch.cs
  match checkSigsLoop q ctx.G.Y m [] ch.sigs with
  | Except.error e => (Except.error e, ch)
  | Except.ok () =>
    if ¬ cs = ch.cs then (Except.error DErr.challengeMismatch, ch)
    else if ch.sigs.length = ctx.G.Y.length then (Except.ok (), ch)
    else (Except.ok (), { ch with sigs := ch.sigs ++ [⟨srv.index, ecdsaSign q srv.priv m⟩] })

/-- The server-proof check a finalizing client runs for hop `i` (spec §4.4 step 2):
a proof without `r2` is verified as a misbehaviour proof against `request.S[0]` at
server index `indexes[i]`, any other as a standard server proof at position `i`. -/
def verifyHopProofsClient (q : ℕ) (ctx : ContextEd q) (msg : ServerMessage q) : Bool :=
  (List.range msg.proofs.length).all (fun i =>
    match (msg.proofs.getD i (dproof q)).r2 with
    | none => verifyMisbehavingProof q ctx (msg.indexes.getD i 0)
        (msg.proofs.getD i (dproof q)) (msg.request.sArray.getD 0 1)
    | some _ => verifyServerProof q ctx i msg)

/-- Modelled from the spec: `GetFinalLinkageTag` of the daga package is not under
src (only its test in daga/client_test.go and callers are); spec §4.5: on a
fully-processed message (`|indexes| = n`, all hop vectors of equal length) verify
every hop's signature exactly as servers do, verify every server proof, and
return `tags[n-1]`; any failure is an error and no tag is returned. -/
def GetFinalLinkageTag (q : ℕ) (ctx : ContextEd q) (msg : ServerMessage q) :
    Except DErr (Pt q) :=
  if ¬ (msg.indexes.length = ctx.G.Y.length ∧ msg.tags.length = msg.indexes.length ∧
      msg.proofs.length = msg.indexes.length ∧ msg.sigs.length = msg.indexes.length) then
    Except.error DErr.invalidMessage
  else if ¬ verifyHopSigs q ctx msg then Except.error DErr.badSignature
  else if ¬ verifyHopProofsClient q ctx msg then Except.error DErr.badServerProof
  else
    match msg.tags.getLast? with
    | some t => Except.ok t
    | none => Except.error DErr.invalidMessage

/-- The server with index `j` drawn from the lists of private keys and per-round
secrets. -/
def mkServer (q : ℕ) (ys rs : List (ZMod q)) (j : ℕ) : ServerState q :=
  ⟨ys.getD j 0, j, rs.getD j 0⟩

/-- A full pipeline run: every server index in `order` executes `ServerProtocol`
once, in sequence; `vr` supplies each server's proof witnesses. -/
def runPipeline (q : ℕ) (ctx : ContextEd q) (ys rs : List (ZMod q))
    (vr : ℕ → ZMod q × ZMod q) (order : List ℕ) (m0 : ServerMessage q) :
    Except DErr (ServerMessage q) :=
  match order with
  | [] => Except.ok m0
  | j :: rest =>
    match ServerProtocol q ctx (mkServer q ys rs j) (vr j).1 (vr j).2 m0 with
    | (Except.ok _, m1) => runPipeline q ctx ys rs vr rest m1
    | (Except.error e, _) => Except.error e

/-- The client message a client assembles from `CreateRequestPy` and a finished
proof. -/
def honestRequest (q : ℕ) (ctx : ContextEd q) (idx : ℕ) (z : ZMod q)
    (prf : ClientProof q) : ClientMessage q :=
  { context := ctx, sArray := (CreateRequestPy q ctx idx z).2.1,
    t0 := (CreateRequestPy q ctx idx z).1, proof := prf }

/-- The standard server-proof verification procedure as the specification states
it (§4.4a): at position `h`, with `T_prev = request.T₀` if `h = 0` else
`tags[h-1]` and `j = indexes[h]`, recompute `t1' = T_prev^{r1} − tags[h]^{r2}`,
`t2' = g^{r1}·R_j^{c}`, `t3' = S[j+1]^{r2}·S[j+2]^{c}`, hash over the same `R_j`,
`S[j+2]`, `S[j+1]`, and accept exactly when the hash equals the proof's `c`. -/
def specStandardVerify (q : ℕ) (ctx : ContextEd q) (h : ℕ) (msg : ServerMessage q) : Bool :=
  if h < msg.proofs.length then
    match (msg.proofs.getD h (dproof q)).r2 with
    | none => false
    | some r2 =>
      let prf := msg.proofs.getD h (dproof q)
      let j := msg.indexes.getD h 0
      let Tprev := if h = 0 then msg.request.t0 else msg.tags.getD (h - 1) 1
      let Rj := ctx.R.getD j 1
      let Sj1 := msg.request.sArray.getD (j + 1) 1
      let Sj2 := msg.request.sArray.getD (j + 2) 1
      let t1r := pointMul q Tprev prf.r1 / pointMul q (msg.tags.getD h 1) r2
      let t2r := pointMul q (gBase q) prf.r1 * pointMul q Rj prf.c
      let t3r := pointMul q Sj1 r2 * pointMul q Sj2 prf.c
      hashPC q [Tprev, msg.tags.getD h 1, Rj, gBase q, Sj2, Sj1, t1r, t2r, t3r] == prf.c
  else false

/-- The amended description of dagapython's `VerifyServerProof`: `t2'` uses
`R[indexes[h]]`, while `t3'` and the challenge hash use the hop position `h`
(`R[h]`, `S[h+1]`, `S[h+2]`). -/
def specStandardVerifyHop (q : ℕ) (ctx : ContextEd q) (h : ℕ) (msg : ServerMessage q) : Bool :=
  if h < msg.proofs.length then
    match (msg.proofs.getD h (dproof q)).r2 with
    | none => false
    | some r2 =>
      let prf := msg.proofs.getD h (dproof q)
      let Tprev := if h = 0 then msg.request.t0 else msg.tags.getD (h - 1) 1
      let Sh1 := msg.request.sArray.getD (h + 1) 1
      let Sh2 := msg.request.sArray.getD (h + 2) 1
      let t1r := pointMul q Tprev prf.r1 / pointMul q (msg.tags.getD h 1) r2
      let t2r := pointMul q (gBase q) prf.r1 *
        pointMul q (ctx.R.getD (msg.indexes.getD h 0) 1) prf.c
      let t3r := pointMul q Sh1 r2 * pointMul q Sh2 prf.c
      hashPC q [Tprev, msg.tags.getD h 1, ctx.R.getD h 1, gBase q, Sh2, Sh1, t1r, t2r, t3r] ==
        prf.c
  else false

/-- The shape predicate asserted by the specification for `ValidateClientMessage`
(§3 invariants (2)-(3), C9): `|S| = n + 2`, `S[1] = g` by group-element equality,
`|t| = 3m`, `|c| = m`, `|r| = 2m`. -/
def specValidShape (q : ℕ) (msg : ClientMessage q) : Bool :=
  (msg.sArray.length == msg.context.G.Y.length + 2) && (msg.sArray.getD 1 1 == gBase q) &&
    (msg.proof.t.length == 3 * msg.context.G.X.length) &&
    (msg.proof.c.length == msg.context.G.X.length) &&
    (msg.proof.r.length == 2 * msg.context.G.X.length)

/-- A point of the witness instances over `q = 11`. -/
def mkPt (q : ℕ) (k : ZMod q) : Pt q := Multiplicative.ofAdd k

/-- Witness context: one client `X₀ = g³` with generator `h₀ = g⁵`, one server
`Y₀ = g¹` with per-round commitment `R₀ = g² = g^{r₀}`. -/
def wCtx : ContextEd 11 := ⟨⟨[mkPt 11 3], [mkPt 11 1]⟩, [mkPt 11 2], [mkPt 11 5]⟩

/-- Witness client proof for the run with `z = 1` (witnesses `v = (5,6)`, `w₀ = 0`,
challenge `cs = 3`). -/
def wPrf1 : ClientProof 11 := ⟨3, [mkPt 11 5, mkPt 11 6, mkPt 11 8], [3], [7, 5]⟩

/-- Witness client proof for the run with `z = 4`. -/
def wPrf2 : ClientProof 11 := ⟨3, [mkPt 11 5, mkPt 11 6, mkPt 11 8], [3], [7, 7]⟩

/-- Witness request of client 0 with ephemeral scalar `z = 1`. -/
def wReq1 : ClientMessage 11 := honestRequest 11 wCtx 0 1 wPrf1

/-- Witness request of client 0 with ephemeral scalar `z = 4`. -/
def wReq2 : ClientMessage 11 := honestRequest 11 wCtx 0 4 wPrf2

/-- Witness proof randomness for the single server. -/
def wVr : ℕ → ZMod 11 × ZMod 11 := fun _ => (3, 5)

/-- Witness pipeline run for `z = 1`. -/
def wRun1 : Except DErr (ServerMessage 11) :=
  runPipeline 11 wCtx [1] [2] wVr [0] (InitializeServerMessage 11 wReq1)

/-- Witness pipeline run for `z = 4`. -/
def wRun2 : Except DErr (ServerMessage 11) :=
  runPipeline 11 wCtx [1] [2] wVr [0] (InitializeServerMessage 11 wReq2)

/-- A default server message, used to name the value inside an `Except.ok`. -/
def dmsg (q : ℕ) : ServerMessage q :=
  ⟨⟨⟨⟨[], []⟩, [], []⟩, [], 1, ⟨0, [], [], []⟩⟩, [], [], [], []⟩

/-- The final server message of the witness run with `z = 1`, written out as a
literal (the lemma `wRun1_eq` checks it is the run's result). -/
def wFin1 : ServerMessage 11 :=
  ⟨wReq1, [mkPt 11 10], [⟨mkPt 11 10, mkPt 11 3, mkPt 11 5, 3, 8, some 4⟩], [0],
    [⟨0, ⟨1, [3, 1, 5, 2, 1, 1, 4, 9, 3, 5, 6, 8, 3, 7, 5, 10, 10, 3, 5, 3, 8, 4, 0]⟩⟩]⟩

/-- The final server message of the witness run with `z = 4`, written out as a
literal (the lemma `wRun2_eq` checks it is the run's result). -/
def wFin2 : ServerMessage 11 :=
  ⟨wReq2, [mkPt 11 10], [⟨mkPt 11 0, mkPt 11 3, mkPt 11 5, 6, 2, some 7⟩], [0],
    [⟨0, ⟨1, [3, 1, 5, 2, 4, 1, 7, 2, 3, 5, 6, 8, 3, 7, 7, 10, 0, 3, 5, 6, 2, 7, 0]⟩⟩]⟩

/-- Concrete context for the C3 failing input: one client `X₀ = g²` with
generator `h₀ = g⁴`, one server `Y₀ = g` with commitment `R₀ = g`. -/
def c3ctx : ContextEd 11 := ⟨⟨[mkPt 11 2], [mkPt 11 1]⟩, [mkPt 11 1], [mkPt 11 4]⟩

/-- C3 failing input: a client message whose proof satisfies every verification
equation and the challenge sum, but whose `S[1] = g³` is not the generator. -/
def c3msg : ClientMessage 11 :=
  ⟨c3ctx, [mkPt 11 5, mkPt 11 3, mkPt 11 6], mkPt 11 7,
    ⟨2, [mkPt 11 7, mkPt 11 5, mkPt 11 8], [2], [3, 4]⟩⟩

/-- Concrete context for the C5 counterexample: two servers with distinct
per-round commitments `R = [g, g²]`. -/
def c5ctx : ContextEd 11 := ⟨⟨[], [mkPt 11 1, mkPt 11 1]⟩, [mkPt 11 1, mkPt 11 2], []⟩

/-- C5 counterexample message: hop 0 was produced by server `indexes[0] = 1`;
dagapython's `VerifyServerProof` accepts it (its hash reads `R[0]`, `S[1]`,
`S[2]`), while the verification procedure the claim describes (hash over
`R[indexes[0]] = R[1]` and `S[2]`, `S[3]`) rejects it. -/
def c5msg : ServerMessage 11 :=
  ⟨⟨c5ctx, [mkPt 11 5, mkPt 11 1, mkPt 11 6, mkPt 11 7], mkPt 11 3, ⟨0, [], [], []⟩⟩,
    [mkPt 11 4], [⟨1, 1, 1, 4, 1, some 2⟩], [1], []⟩

/-- Witness challenge: `cs = 3` signed by the single witness server (key 1). -/
def wCh : ChallengeMsg 11 := ⟨3, [⟨0, ecdsaSign 11 1 (scalarBytes 11 3)⟩]⟩

/-- Structural decidable equality for `Except`, used to evaluate witness runs. -/
instance {ε α : Type} [DecidableEq ε] [DecidableEq α] : DecidableEq (Except ε α) :=
  fun a b =>
    match a, b with
    | Except.ok x, Except.ok y =>
      if h : x = y then Decidable.isTrue (by rw [h]) else Decidable.isFalse (by simp [h])
    | Except.error e, Except.error f =>
      if h : e = f then Decidable.isTrue (by rw [h]) else Decidable.isFalse (by simp [h])
    | Except.ok _, Except.error _ => Decidable.isFalse (by simp)
    | Except.error _, Except.ok _ => Decidable.isFalse (by simp)

/-- The witness modulus 11 is prime. -/
instance : Fact (Nat.Prime 11) := ⟨by norm_num⟩

lemma pointMul_pointMul (q : ℕ) (p : Pt q) (a b : ZMod q) :
    pointMul q (pointMul q p a) b = pointMul q p (a * b) := by
  simp only [pointMul, toAdd_ofAdd]
  rw [mul_comm a b, mul_assoc]

lemma pointMul_one (q : ℕ) (p : Pt q) : pointMul q p 1 = p := by
  simp [pointMul]

lemma pointMul_gBase_inj (q : ℕ) (a b : ZMod q) (h : pointMul q (gBase q) a = pointMul q (gBase q) b) :
    a = b := by
  simpa [pointMul, gBase] using h

lemma getD_range_map {α : Type} (l : List α) (d : α) :
    (List.range l.length).map (fun j => l.getD j d) = l := by
  induction l with
  | nil => rfl
  | cons a l ih =>
    rw [List.length_cons, List.range_succ_eq_map, List.map_cons, List.map_map]
    simp only [List.getD_cons_zero, Function.comp_def, List.getD_cons_succ]
    rw [ih]

lemma scInv_eq_inv (q : ℕ) [Fact (Nat.Prime q)] (hq : 2 < q) (a : ZMod q) :
    scInv q a = a⁻¹ := by
  by_cases ha : a = 0
  · subst ha
    rw [scInv, zero_pow (by omega), inv_zero]
  · have h1 : a * a ^ (q - 2) = 1 := by
      rw [← pow_succ', show q - 2 + 1 = q - 1 by omega]
      exact ZMod.pow_card_sub_one_eq_one ha
    rw [scInv, ← inv_eq_of_mul_eq_one_right h1]

lemma commitChain_snd (q : ℕ) (σs : List (ZMod q)) (exp : ZMod q) :
    (commitChain q exp σs).2 = exp * σs.prod := by
  induction σs generalizing exp with
  | nil => simp [commitChain]
  | cons σ rest ih => simp [commitChain, ih, mul_assoc]

lemma commitChain_length (q : ℕ) (σs : List (ZMod q)) (exp : ZMod q) :
    (commitChain q exp σs).1.length = σs.length + 1 := by
  induction σs generalizing exp with
  | nil => simp [commitChain]
  | cons σ rest ih => simp [commitChain, ih]

lemma commitChain_getD (q : ℕ) (σs : List (ZMod q)) (exp : ZMod q) (i : ℕ) (hi : i ≤ σs.length) :
    (commitChain q exp σs).1.getD i 1 = pointMul q (gBase q) (exp * (σs.take i).prod) := by
  induction σs generalizing exp i with
  | nil =>
    rw [List.length_nil, Nat.le_zero] at hi
    subst hi
    simp [commitChain]
  | cons σ rest ih =>
    cases i with
    | zero => simp [commitChain]
    | succ i =>
      rw [List.length_cons, Nat.succ_le_succ_iff] at hi
      simp only [commitChain, List.getD_cons_succ, List.take_succ_cons, List.prod_cons]
      rw [ih (exp * σ) i hi, mul_assoc]

lemma getD_range_take {α : Type} (l : List α) (d : α) (m : ℕ) (hm : m ≤ l.length) :
    (List.range m).map (fun j => l.getD j d) = l.take m := by
  induction l generalizing m with
  | nil =>
    rw [List.length_nil, Nat.le_zero] at hm
    subst hm
    rfl
  | cons a l ih =>
    cases m with
    | zero => rfl
    | succ m =>
      rw [List.length_cons, Nat.succ_le_succ_iff] at hm
      rw [List.range_succ_eq_map, List.map_cons, List.map_map, List.take_succ_cons]
      simp only [List.getD_cons_zero, Function.comp_def, List.getD_cons_succ]
      rw [ih m hm]

lemma createRequest_s (q : ℕ) (ctx : ContextEd q) (idx : ℕ) (z : ZMod q) :
    (CreateRequestPy q ctx idx z).2.2 =
      (ctx.G.Y.map (fun Yj => hashSB q (pointMul q Yj z))).prod := by
  simp only [CreateRequestPy]
  rw [commitChain_snd, one_mul]

lemma foldl_mul_eq_prod (q : ℕ) (l : List (ZMod q)) :
    l.foldl (fun a b => a * b) 1 = l.prod := by
  rw [List.prod_eq_foldl]

lemma createRequest_T0 (q : ℕ) (ctx : ContextEd q) (idx : ℕ) (z : ZMod q) :
    (CreateRequestPy q ctx idx z).1 =
      pointMul q (ctx.H.getD idx 1) (CreateRequestPy q ctx idx z).2.2 := by
  simp only [CreateRequestPy]
  rw [commitChain_snd, one_mul, foldl_mul_eq_prod]

lemma createRequest_S_length (q : ℕ) (ctx : ContextEd q) (idx : ℕ) (z : ZMod q) :
    (CreateRequestPy q ctx idx z).2.1.length = ctx.G.Y.length + 2 := by
  simp [CreateRequestPy, commitChain_length]

lemma createRequest_S_zero (q : ℕ) (ctx : ContextEd q) (idx : ℕ) (z : ZMod q) :
    (CreateRequestPy q ctx idx z).2.1.getD 0 1 = pointMul q (gBase q) z := by
  simp [CreateRequestPy]

lemma createRequest_S_succ (q : ℕ) (ctx : ContextEd q) (idx : ℕ) (z : ZMod q) (k : ℕ)
    (hk : k ≤ ctx.G.Y.length) :
    (CreateRequestPy q ctx idx z).2.1.getD (k + 1) 1 =
      pointMul q (gBase q)
        (((ctx.G.Y.map (fun Yj => hashSB q (pointMul q Yj z))).take k).prod) := by
  simp only [CreateRequestPy, List.getD_cons_succ]
  rw [commitChain_getD _ _ _ k (by simpa using hk), one_mul]

lemma range_map_getD_comp {α β : Type} (l : List α) (d : α) (f : α → β) :
    (List.range l.length).map (fun j => f (l.getD j d)) = l.map f := by
  rw [show (fun j => f (l.getD j d)) = f ∘ (fun j => l.getD j d) from rfl, ← List.map_map,
    getD_range_take l d l.length le_rfl, List.take_length]

/-- C8: `CreateRequest` postcondition — for every context with `n` servers and
every client `i`, `CreateRequest` returns `(T₀, S, s)` with
`s = ∏_{j<n} σ_j` for `σ_j = HashToScalar(Y_j^z)`, `T₀ = h_i^s`, and `S` of
length `n+2` with `S[0] = g^z`, `S[1] = g` and `S[k+2] = g^{∏_{j≤k} σ_j}` for
every `k < n`. -/
theorem C8_createRequest_postcondition (q : ℕ) (ctx : ContextEd q) (idx : ℕ) (z : ZMod q) :
    (CreateRequestPy q ctx idx z).2.2 =
      ((List.range ctx.G.Y.length).map
        (fun j => hashSB q (pointMul q (ctx.G.Y.getD j 1) z))).prod ∧
    (CreateRequestPy q ctx idx z).1 =
      pointMul q (ctx.H.getD idx 1) (CreateRequestPy q ctx idx z).2.2 ∧
    (CreateRequestPy q ctx idx z).2.1.length = ctx.G.Y.length + 2 ∧
    (CreateRequestPy q ctx idx z).2.1.getD 0 1 = pointMul q (gBase q) z ∧
    (CreateRequestPy q ctx idx z).2.1.getD 1 1 = gBase q ∧
    ∀ k, k < ctx.G.Y.length →
      (CreateRequestPy q ctx idx z).2.1.getD (k + 2) 1 =
        pointMul q (gBase q)
          (((List.range (k + 1)).map
            (fun j => hashSB q (pointMul q (ctx.G.Y.getD j 1) z))).prod) := by
  refine ⟨?_, createRequest_T0 q ctx idx z, createRequest_S_length q ctx idx z,
    createRequest_S_zero q ctx idx z, ?_, ?_⟩
  · have h1 : (List.range ctx.G.Y.length).map (fun j => ctx.G.Y.getD j 1) = ctx.G.Y := by
      simpa using getD_range_take ctx.G.Y 1 ctx.G.Y.length le_rfl
    rw [createRequest_s]
    conv_rhs => rw [show (fun j => hashSB q (pointMul q (ctx.G.Y.getD j 1) z)) =
      (fun Yj => hashSB q (pointMul q Yj z)) ∘ (fun j => ctx.G.Y.getD j 1) from rfl,
      ← List.map_map, h1]
  · rw [show (1 : ℕ) = 0 + 1 from rfl, createRequest_S_succ q ctx idx z 0 (Nat.zero_le _)]
    simp [pointMul_one]
  · intro k hk
    rw [show k + 2 = (k + 1) + 1 from rfl, createRequest_S_succ q ctx idx z (k + 1) hk]
    have hr : (List.range (k + 1)).map
        (fun j => hashSB q (pointMul q (ctx.G.Y.getD j 1) z)) =
        ((ctx.G.Y.take (k + 1)).map (fun Yj => hashSB q (pointMul q Yj z))) := by
      rw [show (fun j => hashSB q (pointMul q (ctx.G.Y.getD j 1) z)) =
        (fun Yj => hashSB q (pointMul q Yj z)) ∘ (fun j => ctx.G.Y.getD j 1) from rfl,
        ← List.map_map, getD_range_take ctx.G.Y 1 (k + 1) hk]
    rw [hr, List.map_take]

/-- Witness for C8 at the concrete context `wCtx`, client 0 and `z = 1`. -/
theorem C8_createRequest_postcondition_witness :
    0 < wCtx.G.Y.length ∧
    (CreateRequestPy 11 wCtx 0 1).2.1.getD 2 1 =
      pointMul 11 (gBase 11)
        (((List.range 1).map
          (fun j => hashSB 11 (pointMul 11 (wCtx.G.Y.getD j 1) 1))).prod) :=
  ⟨by decide, (C8_createRequest_postcondition 11 wCtx 0 1).2.2.2.2.2 0 (by decide)⟩

/-- C9: dagapython's `ValidateClientMessage` returns `false` on every message —
the generator check is an interface (pointer) comparison against a fresh
allocation and always fires — while the claimed shape predicate accepts the
well-formed witness request; so the claim that it returns `true` exactly for
shape-valid messages fails, and the code contradicts its own doc comment and the
later daga revision. -/
theorem C9_validateClientMessage_alwaysFalse :
    (∀ (q : ℕ) (msg : ClientMessage q), ValidateClientMessagePy q msg = false) ∧
    ValidateClientMessagePy 11 wReq1 = false ∧ specValidShape 11 wReq1 = true := by
  refine ⟨fun q msg => ?_, by decide, by decide⟩
  simp [ValidateClientMessagePy, goFreshPointerNeq]

/-- C3: dagapython's `VerifyClientProof` accepts the concrete message `c3msg`
whose `S[1] = g³` is not the generator, while the specified verifier (modelled
as daga's `verifyClientProof`, which the claim describes) rejects it; the
function never inspects `S[1]`, contradicting the claim and the package's own
test `TestValidateClientMessage`. -/
theorem C3_verifyClientProof_missing_generator_check :
    VerifyClientProofPy 11 c3msg = true ∧ c3msg.sArray.getD 1 1 ≠ gBase 11 ∧
    verifyClientProof 11 c3msg = false := by
  refine ⟨by decide, by decide, by decide⟩

/-- C5 counterexample: at a hop whose recorded server index differs from the hop
position, dagapython's `VerifyServerProof` and the claimed verification
procedure disagree — the code accepts `c5msg` although recomputing the challenge
hash over `R_j`, `S[j+1]`, `S[j+2]` with `j = indexes[0] = 1` rejects it. -/
theorem C5_counterexample_hop_index_mix :
    VerifyServerProofPy 11 c5ctx 0 c5msg = true ∧
    specStandardVerify 11 c5ctx 0 c5msg = false ∧
    c5msg.indexes.getD 0 0 ≠ 0 := by
  refine ⟨by decide, by decide, by decide⟩

/-- C5 amended: daga's `verifyServerProof` verifies exactly as the claim states
(every read of `R` and `S` and the challenge hash use `j = indexes[h]`), while
dagapython's `VerifyServerProof` uses `R[indexes[h]]` only for `t2'` and reads
`R[h]`, `S[h+1]`, `S[h+2]` in `t3'` and in the challenge hash. -/
theorem C5_amended_standard_verification :
    (∀ (q : ℕ) (ctx : ContextEd q) (h : ℕ) (msg : ServerMessage q),
      verifyServerProof q ctx h msg = specStandardVerify q ctx h msg) ∧
    (∀ (q : ℕ) (ctx : ContextEd q) (h : ℕ) (msg : ServerMessage q),
      VerifyServerProofPy q ctx h msg = specStandardVerifyHop q ctx h msg) := by
  constructor
  · intro q ctx h msg
    simp only [verifyServerProof, specStandardVerify]
    rcases Nat.lt_or_ge h msg.proofs.length with hl | hl
    · rw [if_neg (by omega), if_pos hl]
    · rw [if_pos (by omega), if_neg (by omega)]
  · intro q ctx h msg
    simp only [VerifyServerProofPy, specStandardVerifyHop]
    rcases Nat.lt_or_ge h msg.proofs.length with hl | hl
    · rw [if_neg (by omega), if_pos hl]
    · rw [if_pos (by omega), if_neg (by omega)]

lemma sum_set (q : ℕ) (l : List (ZMod q)) (i : ℕ) (a : ZMod q) (h : i < l.length) :
    (l.set i a).sum = l.sum - l.getD i 0 + a := by
  induction l generalizing i with
  | nil => simp at h
  | cons x l ih =>
    cases i with
    | zero => simp [List.set_cons_zero]; ring
    | succ i =>
      rw [List.length_cons, Nat.succ_lt_succ_iff] at h
      rw [List.set_cons_succ, List.sum_cons, List.sum_cons, List.getD_cons_succ, ih i h]
      ring

lemma sum_eraseIdx (q : ℕ) (l : List (ZMod q)) (i : ℕ) (h : i < l.length) :
    (l.eraseIdx i).sum = l.sum - l.getD i 0 := by
  induction l generalizing i with
  | nil => simp at h
  | cons x l ih =>
    cases i with
    | zero => simp [List.eraseIdx]
    | succ i =>
      rw [List.length_cons, Nat.succ_lt_succ_iff] at h
      rw [List.eraseIdx_cons_succ, List.sum_cons, List.sum_cons, List.getD_cons_succ, ih i h]
      ring

lemma getD_set_self {α : Type} (l : List α) (i : ℕ) (a : α) (d : α) (h : i < l.length) :
    (l.set i a).getD i d = a := by
  induction l generalizing i with
  | nil => simp at h
  | cons x l ih =>
    cases i with
    | zero => rfl
    | succ i =>
      rw [List.length_cons, Nat.succ_lt_succ_iff] at h
      rw [List.set_cons_succ, List.getD_cons_succ]
      exact ih i h

lemma getD_set_ne {α : Type} (l : List α) (i : ℕ) (a : α) (k : ℕ) (d : α) (h : k ≠ i) :
    (l.set i a).getD k d = l.getD k d := by
  induction l generalizing i k with
  | nil => rfl
  | cons x l ih =>
    cases i with
    | zero =>
      cases k with
      | zero => exact absurd rfl h
      | succ k => rfl
    | succ i =>
      cases k with
      | zero => rfl
      | succ k =>
        rw [List.set_cons_succ, List.getD_cons_succ, List.getD_cons_succ]
        exact ih i k (fun hk => h (by omega))

/-- C7: `GenerateProofResponses` first verifies every challenge signature under
the corresponding server key over the canonical encoding of `cs`, failing with an
error (and no responses) exactly when one does not verify; on success it returns
`c` with `c_k = w_k` for `k ≠ i` and `c_i = cs − Σ_{k≠i} w_k` (so `Σ c = cs`),
and `r` equal to `v` except `r_{2i} = v_{2i} − c_i·x_i` and
`r_{2i+1} = v_{2i+1} − c_i·s`.  The hypotheses fix the protocol shape: the
client index is in range, `w_i = 0` (as `GenerateProofCommitments` sets it) and
`|v| > 2i+1`. -/
theorem C7_generateProofResponses (q : ℕ) (ctx : ContextEd q) (idx : ℕ) (priv s : ZMod q)
    (ch : ChallengeMsg q) (v w : List (ZMod q)) (hidx : idx < w.length)
    (hw : w.getD idx 0 = 0) (hv : 2 * idx + 1 < v.length) :
    ((GenerateProofResponsesPy q ctx idx priv s ch v w).isOk = true ↔
      ∀ sg ∈ ch.sigs,
        verifySigAt q ctx.G.Y sg.index (scalarBytes q ch.cs) sg.sig = true) ∧
    ∀ c r, GenerateProofResponsesPy q ctx idx priv s ch v w = Except.ok (c, r) →
      (∀ k, k ≠ idx → c.getD k 0 = w.getD k 0) ∧
      c.getD idx 0 = ch.cs - (w.eraseIdx idx).sum ∧
      c.sum = ch.cs ∧
      r.getD (2 * idx) 0 = v.getD (2 * idx) 0 - c.getD idx 0 * priv ∧
      r.getD (2 * idx + 1) 0 = v.getD (2 * idx + 1) 0 - c.getD idx 0 * s ∧
      ∀ k, k ≠ 2 * idx → k ≠ 2 * idx + 1 → r.getD k 0 = v.getD k 0 := by
  have hfold : w.foldl (fun a b => a + b) 0 = w.sum := by
    rw [List.sum_eq_foldl]
  constructor
  · by_cases hall : ch.sigs.all
        (fun sg => verifySigAt q ctx.G.Y sg.index (scalarBytes q ch.cs) sg.sig) = true
    · rw [GenerateProofResponsesPy, if_pos hall]
      exact ⟨fun _ sg hsg => List.all_eq_true.mp hall sg hsg, fun _ => rfl⟩
    · rw [GenerateProofResponsesPy, if_neg hall]
      constructor
      · intro hfalse
        exact Bool.noConfusion hfalse
      · intro hforall
        exact absurd (List.all_eq_true.mpr (fun sg hsg => hforall sg hsg)) hall
  · intro c r hok
    rw [GenerateProofResponsesPy] at hok
    by_cases hall : ch.sigs.all
        (fun sg => verifySigAt q ctx.G.Y sg.index (scalarBytes q ch.cs) sg.sig) = true
    · rw [if_pos hall] at hok
      simp only [Except.ok.injEq, Prod.mk.injEq] at hok
      obtain ⟨hc, hr⟩ := hok
      have hci : c.getD idx 0 = ch.cs - w.sum := by
        rw [← hc, hfold, getD_set_self w idx _ 0 hidx]
      have herase : (w.eraseIdx idx).sum = w.sum := by
        rw [sum_eraseIdx q w idx hidx, hw, sub_zero]
      refine ⟨?_, ?_, ?_, ?_, ?_, ?_⟩
      · intro k hk
        rw [← hc, getD_set_ne w idx _ k 0 hk]
      · rw [hci, herase]
      · rw [← hc, hfold, sum_set q w idx _ hidx, hw]
        ring
      · rw [← hr, ← hc, hfold]
        rw [getD_set_ne _ (2 * idx + 1) _ (2 * idx) 0 (by omega),
          getD_set_self v (2 * idx) _ 0 (by omega)]
      · rw [← hr, ← hc, hfold]
        rw [getD_set_self _ (2 * idx + 1) _ 0 (by simpa using hv)]
      · intro k hk1 hk2
        rw [← hr, getD_set_ne _ (2 * idx + 1) _ k 0 hk2, getD_set_ne _ (2 * idx) _ k 0 hk1]
    · rw [if_neg hall] at hok
      exact absurd hok (by simp)

/-- Witness for C7: the concrete witness client finishing its proof against the
signed witness challenge produces `c = [3]`, `r = [7, 5]` with `Σ c = cs`. -/
theorem C7_generateProofResponses_witness :
    (([3] : List (ZMod 11)).sum = wCh.cs) ∧
    (([7, 5] : List (ZMod 11)).getD 0 0 =
      ([5, 6] : List (ZMod 11)).getD 0 0 - ([3] : List (ZMod 11)).getD 0 0 * 3) :=
  ⟨((C7_generateProofResponses 11 wCtx 0 3 4 wCh [5, 6] [0] (by decide) (by decide)
      (by decide)).2 [3] [7, 5] (by rfl)).2.2.1,
    ((C7_generateProofResponses 11 wCtx 0 3 4 wCh [5, 6] [0] (by decide) (by decide)
      (by decide)).2 [3] [7, 5] (by rfl)).2.2.2.1⟩

lemma checkSigsLoop_ok_iff (q : ℕ) (Y : List (Pt q)) (m : List ℕ) (sigs : List (ServerSig q))
    (seen : List ℕ) :
    checkSigsLoop q Y m seen sigs = Except.ok () ↔
      ((sigs.map ServerSig.index).Nodup ∧ (∀ sg ∈ sigs, sg.index ∉ seen) ∧
        ∀ sg ∈ sigs, verifySigAt q Y sg.index m sg.sig = true) := by
  induction sigs generalizing seen with
  | nil => simp [checkSigsLoop]
  | cons sg rest ih =>
    rw [checkSigsLoop]
    by_cases hseen : sg.index ∈ seen
    · rw [if_pos hseen]
      simp only [List.mem_cons]
      constructor
      · intro h
        exact absurd h (by simp)
      · rintro ⟨-, hnot, -⟩
        exact absurd hseen (hnot sg (Or.inl rfl))
    · rw [if_neg hseen]
      by_cases hver : verifySigAt q Y sg.index m sg.sig = true
      · rw [if_neg (not_not_intro hver), ih (sg.index :: seen)]
        simp only [List.map_cons, List.nodup_cons, List.mem_map, List.mem_cons,
          List.mem_cons]
        constructor
        · rintro ⟨hnd, hns, hv⟩
          refine ⟨⟨fun hmem => ?_, hnd⟩, ?_, ?_⟩
          · obtain ⟨x, hx, hxi⟩ := hmem
            have hx2 := hns x hx
            simp only [List.mem_cons, not_or] at hx2
            exact hx2.1 hxi
          · rintro x (rfl | hx)
            · exact hseen
            · have := hns x hx
              simp only [List.mem_cons] at this
              exact fun hc => this (Or.inr hc)
          · rintro x (rfl | hx)
            · exact hver
            · exact hv x hx
        · rintro ⟨⟨hnm, hnd⟩, hns, hv⟩
          refine ⟨hnd, fun x hx => ?_, fun x hx => hv x (Or.inr hx)⟩
          intro hmem
          rcases hmem with hxi | hxs
          · exact hnm ⟨x, hx, hxi⟩
          · exact (hns x (Or.inr hx)) hxs
      · rw [if_pos hver]
        constructor
        · intro h
          exact absurd h (by simp)
        · rintro ⟨-, -, hv⟩
          exact absurd (hv sg (by simp)) hver

lemma checkSigsLoop_error (q : ℕ) (Y : List (Pt q)) (m : List ℕ) (sigs : List (ServerSig q))
    (seen : List ℕ) (h : checkSigsLoop q Y m seen sigs ≠ Except.ok ()) :
    ∃ e, checkSigsLoop q Y m seen sigs = Except.error e := by
  cases hc : checkSigsLoop q Y m seen sigs with
  | ok u =>
    cases u
    exact absurd hc h
  | error e => exact ⟨e, rfl⟩

/-- C6: `CheckUpdateChallenge` fails exactly when two signatures share a signer
index, a signature fails to verify over the canonical encoding of `cs` under the
claimed signer's key, or the carried `cs` disagrees with the recomputed
challenge; on success the state is unchanged when `|sigs| = n` and the server's
own signature over `cs` is appended when `|sigs| < n` (on success `|sigs| ≤ n`
always holds, so the append happens exactly when `|sigs| < n`). -/
theorem C6_checkUpdateChallenge (q : ℕ) (ctx : ContextEd q) (srv : ServerState q)
    (cs : ZMod q) (ch : ChallengeMsg q) :
    ((CheckUpdateChallenge q ctx srv cs ch).1 = Except.ok () ↔
      ((ch.sigs.map ServerSig.index).Nodup ∧
        (∀ sg ∈ ch.sigs,
          verifySigAt q ctx.G.Y sg.index (scalarBytes q ch.cs) sg.sig = true) ∧
        cs = ch.cs)) ∧
    (∀ e, (CheckUpdateChallenge q ctx srv cs ch).1 = Except.error e →
      (CheckUpdateChallenge q ctx srv cs ch).2 = ch) ∧
    ((CheckUpdateChallenge q ctx srv cs ch).1 = Except.ok () →
      ch.sigs.length ≤ ctx.G.Y.length ∧
      (ch.sigs.length = ctx.G.Y.length → (CheckUpdateChallenge q ctx srv cs ch).2 = ch) ∧
      (ch.sigs.length < ctx.G.Y.length → (CheckUpdateChallenge q ctx srv cs ch).2 =
        { ch with sigs :=
            ch.sigs ++ [⟨srv.index, ecdsaSign q srv.priv (scalarBytes q ch.cs)⟩] })) := by
  have hloop := checkSigsLoop_ok_iff q ctx.G.Y (scalarBytes q ch.cs) ch.sigs []
  refine ⟨?_, ?_, ?_⟩
  · rw [CheckUpdateChallenge]
    cases hc : checkSigsLoop q ctx.G.Y (scalarBytes q ch.cs) [] ch.sigs with
    | error e =>
      simp only
      constructor
      · intro h
        exact absurd h (by simp)
      · rintro ⟨hnd, hv, -⟩
        rw [hc] at hloop
        have : (Except.error e : Except DErr Unit) = Except.ok () :=
          hloop.mpr ⟨hnd, by simp, hv⟩
        exact absurd this (by simp)
    | ok u =>
      cases u
      rw [hc] at hloop
      obtain ⟨hnd, -, hv⟩ := hloop.mp rfl
      simp only
      by_cases hcs : cs = ch.cs
      · rw [if_neg (by simpa using hcs)]
        by_cases hlen : ch.sigs.length = ctx.G.Y.length
        · rw [if_pos hlen]
          exact ⟨fun _ => ⟨hnd, hv, hcs⟩, fun _ => rfl⟩
        · rw [if_neg hlen]
          exact ⟨fun _ => ⟨hnd, hv, hcs⟩, fun _ => rfl⟩
      · rw [if_pos (by simpa using hcs)]
        constructor
        · intro h
          exact absurd h (by simp)
        · rintro ⟨-, -, hc2⟩
          exact absurd hc2 hcs
  · intro e he
    rw [CheckUpdateChallenge] at he ⊢
    cases hc : checkSigsLoop q ctx.G.Y (scalarBytes q ch.cs) [] ch.sigs with
    | error e2 => simp
    | ok u =>
      cases u
      rw [hc] at he
      simp only at he ⊢
      by_cases hcs : cs = ch.cs
      · rw [if_neg (by simpa using hcs)] at he ⊢
        by_cases hlen : ch.sigs.length = ctx.G.Y.length
        · rw [if_pos hlen]
        · rw [if_neg hlen] at he
          exact absurd he (by simp)
      · rw [if_pos (by simpa using hcs)]
  · intro hok
    rw [CheckUpdateChallenge] at hok ⊢
    cases hc : checkSigsLoop q ctx.G.Y (scalarBytes q ch.cs) [] ch.sigs with
    | error e =>
      rw [hc] at hok
      exact absurd hok (by simp)
    | ok u =>
      cases u
      rw [hc] at hok hloop
      obtain ⟨hnd, -, hv⟩ := hloop.mp rfl
      have hle : ch.sigs.length ≤ ctx.G.Y.length := by
        have hsub : (ch.sigs.map ServerSig.index) ⊆ List.range ctx.G.Y.length := by
          intro x hx
          obtain ⟨sg, hsg, hxi⟩ := List.mem_map.mp hx
          have := hv sg hsg
          rw [verifySigAt] at this
          by_cases hb : ctx.G.Y.length ≤ sg.index
          · rw [if_pos hb] at this
            exact absurd this (by simp)
          · rw [List.mem_range, ← hxi]
            omega
        have := (hnd.subperm hsub).length_le
        simpa using this
      simp only at hok ⊢
      by_cases hcs : cs = ch.cs
      · rw [if_neg (by simpa using hcs)] at hok ⊢
        by_cases hlen : ch.sigs.length = ctx.G.Y.length
        · rw [if_pos hlen]
          exact ⟨hle, fun _ => rfl, fun hlt => absurd hlen (by omega)⟩
        · rw [if_neg hlen]
          exact ⟨hle, fun heq => absurd heq hlen, fun _ => rfl⟩
      · rw [if_pos (by simpa using hcs)] at hok
        exact absurd hok (by simp)

/-- Witness for C6: the single witness server updating the fresh witness
challenge `⟨3, []⟩` succeeds and appends exactly its own signature, yielding
`wCh`. -/
theorem C6_checkUpdateChallenge_witness :
    (CheckUpdateChallenge 11 wCtx (mkServer 11 [1] [2] 0) 3 ⟨3, []⟩).2 =
      { cs := 3, sigs := [⟨0, ecdsaSign 11 1 (scalarBytes 11 (3 : ZMod 11))⟩] } :=
  ((C6_checkUpdateChallenge 11 wCtx (mkServer 11 [1] [2] 0) 3 ⟨3, []⟩).2.2
    (by rfl)).2.2 (by decide)

lemma ServerProtocol_error_state (q : ℕ) (ctx : ContextEd q) (srv : ServerState q)
    (v1 v2 : ZMod q) (msg : ServerMessage q) (e : DErr)
    (h : (ServerProtocol q ctx srv v1 v2 msg).1 = Except.error e) :
    (ServerProtocol q ctx srv v1 v2 msg).2 = msg := by
  unfold ServerProtocol at h ⊢
  split_ifs at h ⊢ <;> rfl

lemma ServerProtocol_ok_state (q : ℕ) (ctx : ContextEd q) (srv : ServerState q)
    (v1 v2 : ZMod q) (msg : ServerMessage q)
    (hok : (ServerProtocol q ctx srv v1 v2 msg).1 = Except.ok ()) :
    (ServerProtocol q ctx srv v1 v2 msg).2 =
      (let σ := hashPC q [pointMul q (msg.request.sArray.getD 0 1) srv.priv]
       let honest := msg.request.sArray.getD (srv.index + 2) 1 ==
         pointMul q (msg.request.sArray.getD (srv.index + 1) 1) σ
       let T := if honest then pointMul q (lastTag q msg) (srv.r * scInv q σ) else 1
       let prf := if honest then generateServerProof q ctx srv σ T v1 v2 msg
         else generateMisbehavingProof q ctx srv (msg.request.sArray.getD 0 1) v1
       let data := transcriptBytes q msg msg.indexes.length ++ pointBytes q T ++
         ServerProofMsg.toBytes q prf ++ indexBytes srv.index
       { request := msg.request
         tags := msg.tags ++ [T]
         proofs := msg.proofs ++ [prf]
         indexes := msg.indexes ++ [srv.index]
         sigs := msg.sigs ++ [⟨srv.index, ecdsaSign q srv.priv data⟩] }) := by
  unfold ServerProtocol at hok ⊢
  split_ifs at hok ⊢
  rfl

/-- C10: `ServerProtocol` never modifies the embedded client request (its
canonical bytes are unchanged); on success it appends exactly one element to
each of `tags`, `proofs`, `indexes` and `sigs` and changes nothing else; and on
every error return the whole server message is unchanged. -/
theorem C10_serverProtocol_frame (q : ℕ) (ctx : ContextEd q) (srv : ServerState q)
    (v1 v2 : ZMod q) (msg : ServerMessage q) :
    ((ServerProtocol q ctx srv v1 v2 msg).2.request = msg.request ∧
      ClientMessage.toBytes q (ServerProtocol q ctx srv v1 v2 msg).2.request =
        ClientMessage.toBytes q msg.request) ∧
    (∀ e, (ServerProtocol q ctx srv v1 v2 msg).1 = Except.error e →
      (ServerProtocol q ctx srv v1 v2 msg).2 = msg) ∧
    ((ServerProtocol q ctx srv v1 v2 msg).1 = Except.ok () →
      (ServerProtocol q ctx srv v1 v2 msg).2.tags.dropLast = msg.tags ∧
      (ServerProtocol q ctx srv v1 v2 msg).2.tags.length = msg.tags.length + 1 ∧
      (ServerProtocol q ctx srv v1 v2 msg).2.proofs.dropLast = msg.proofs ∧
      (ServerProtocol q ctx srv v1 v2 msg).2.proofs.length = msg.proofs.length + 1 ∧
      (ServerProtocol q ctx srv v1 v2 msg).2.indexes.dropLast = msg.indexes ∧
      (ServerProtocol q ctx srv v1 v2 msg).2.indexes.length = msg.indexes.length + 1 ∧
      (ServerProtocol q ctx srv v1 v2 msg).2.sigs.dropLast = msg.sigs ∧
      (ServerProtocol q ctx srv v1 v2 msg).2.sigs.length = msg.sigs.length + 1) := by
  refine ⟨?_, ServerProtocol_error_state q ctx srv v1 v2 msg, ?_⟩
  · have hreq : (ServerProtocol q ctx srv v1 v2 msg).2.request = msg.request := by
      unfold ServerProtocol
      split_ifs <;> rfl
    exact ⟨hreq, by rw [hreq]⟩
  · intro hok
    rw [ServerProtocol_ok_state q ctx srv v1 v2 msg hok]
    simp [List.dropLast_concat]

/-- Witness for C10: the witness server processing the fresh witness request
succeeds, appends one hop and keeps the request intact. -/
theorem C10_serverProtocol_frame_witness :
    (ServerProtocol 11 wCtx (mkServer 11 [1] [2] 0) 3 5
        (InitializeServerMessage 11 wReq1)).2.tags.length =
      (InitializeServerMessage 11 wReq1).tags.length + 1 ∧
    (ServerProtocol 11 wCtx (mkServer 11 [1] [2] 0) 3 5
        (InitializeServerMessage 11 wReq1)).2.request =
      (InitializeServerMessage 11 wReq1).request :=
  ⟨((C10_serverProtocol_frame 11 wCtx (mkServer 11 [1] [2] 0) 3 5
      (InitializeServerMessage 11 wReq1)).2.2 (by rfl)).2.1,
    (C10_serverProtocol_frame 11 wCtx (mkServer 11 [1] [2] 0) 3 5
      (InitializeServerMessage 11 wReq1)).1.1⟩

/-- C2: misbehaviour detection in `ServerProtocol` — on every successful call,
with `σ = HashToScalar(request.S[0]^{y_j})`, if `request.S[j+2] ≠
request.S[j+1]^σ` then the appended tag is the identity and the appended proof
is a misbehaviour proof (`r2` absent); otherwise the appended tag is
`T_prev^{r_j·σ⁻¹}` (with `T_prev = request.T₀` at hop 0 and the last tag
otherwise, which is `lastTag`) and the appended proof is a standard server
proof (`r2` present). -/
theorem C2_serverProtocol_misbehaviour_detection (q : ℕ) [Fact (Nat.Prime q)]
    (hq : 2 < q) (ctx : ContextEd q)
    (srv : ServerState q) (v1 v2 : ZMod q) (msg m' : ServerMessage q)
    (hok : ServerProtocol q ctx srv v1 v2 msg = (Except.ok (), m')) :
    (msg.request.sArray.getD (srv.index + 2) 1 ≠
        pointMul q (msg.request.sArray.getD (srv.index + 1) 1)
          (hashPC q [pointMul q (msg.request.sArray.getD 0 1) srv.priv]) →
      m'.tags.getLast? = some 1 ∧
      m'.proofs.getLast?.map ServerProofMsg.r2 = some none) ∧
    (msg.request.sArray.getD (srv.index + 2) 1 =
        pointMul q (msg.request.sArray.getD (srv.index + 1) 1)
          (hashPC q [pointMul q (msg.request.sArray.getD 0 1) srv.priv]) →
      m'.tags.getLast? = some (pointMul q (lastTag q msg)
        (srv.r * (hashPC q [pointMul q (msg.request.sArray.getD 0 1) srv.priv])⁻¹)) ∧
      m'.proofs.getLast?.map (fun p => p.r2.isSome) = some true) := by
  have h1 : (ServerProtocol q ctx srv v1 v2 msg).1 = Except.ok () := by rw [hok]
  have h2 : (ServerProtocol q ctx srv v1 v2 msg).2 = m' := by rw [hok]
  have hs := ServerProtocol_ok_state q ctx srv v1 v2 msg h1
  rw [h2] at hs
  have htags : m'.tags = msg.tags ++
      [if (msg.request.sArray.getD (srv.index + 2) 1 ==
          pointMul q (msg.request.sArray.getD (srv.index + 1) 1)
            (hashPC q [pointMul q (msg.request.sArray.getD 0 1) srv.priv])) = true then
        pointMul q (lastTag q msg)
          (srv.r * scInv q (hashPC q [pointMul q (msg.request.sArray.getD 0 1) srv.priv]))
      else 1] := by
    rw [hs]
  have hproofs : m'.proofs = msg.proofs ++
      [if (msg.request.sArray.getD (srv.index + 2) 1 ==
          pointMul q (msg.request.sArray.getD (srv.index + 1) 1)
            (hashPC q [pointMul q (msg.request.sArray.getD 0 1) srv.priv])) = true then
        generateServerProof q ctx srv
          (hashPC q [pointMul q (msg.request.sArray.getD 0 1) srv.priv])
          (if (msg.request.sArray.getD (srv.index + 2) 1 ==
              pointMul q (msg.request.sArray.getD (srv.index + 1) 1)
                (hashPC q [pointMul q (msg.request.sArray.getD 0 1) srv.priv])) = true then
            pointMul q (lastTag q msg)
              (srv.r * scInv q (hashPC q [pointMul q (msg.request.sArray.getD 0 1) srv.priv]))
          else 1) v1 v2 msg
      else generateMisbehavingProof q ctx srv (msg.request.sArray.getD 0 1) v1] := by
    rw [hs]
  constructor
  · intro hne
    have hhon : (msg.request.sArray.getD (srv.index + 2) 1 ==
        pointMul q (msg.request.sArray.getD (srv.index + 1) 1)
          (hashPC q [pointMul q (msg.request.sArray.getD 0 1) srv.priv])) = false := by
      simpa using hne
    rw [hhon] at htags hproofs
    rw [if_neg (by simp)] at htags
    rw [if_neg (by simp)] at hproofs
    rw [htags, hproofs, List.getLast?_concat, List.getLast?_concat]
    exact ⟨rfl, rfl⟩
  · intro heq
    have hhon : (msg.request.sArray.getD (srv.index + 2) 1 ==
        pointMul q (msg.request.sArray.getD (srv.index + 1) 1)
          (hashPC q [pointMul q (msg.request.sArray.getD 0 1) srv.priv])) = true := by
      simpa using heq
    rw [hhon] at htags hproofs
    rw [if_pos rfl] at htags
    rw [if_pos rfl, if_pos rfl] at hproofs
    rw [htags, hproofs, List.getLast?_concat, List.getLast?_concat,
      scInv_eq_inv q hq]
    exact ⟨rfl, rfl⟩

/-- Witness for C2: the witness server takes the honest branch on the fresh
witness request and appends `T₀^{r₀·σ⁻¹}` together with a standard proof. -/
theorem C2_serverProtocol_misbehaviour_detection_witness :
    (ServerProtocol 11 wCtx (mkServer 11 [1] [2] 0) 3 5
        (InitializeServerMessage 11 wReq1)).2.tags.getLast? =
      some (pointMul 11 (lastTag 11 (InitializeServerMessage 11 wReq1))
        ((mkServer 11 [1] [2] 0).r *
          (hashPC 11 [pointMul 11
            ((InitializeServerMessage 11 wReq1).request.sArray.getD 0 1)
            (mkServer 11 [1] [2] 0).priv])⁻¹)) ∧
    (ServerProtocol 11 wCtx (mkServer 11 [1] [2] 0) 3 5
        (InitializeServerMessage 11 wReq1)).2.proofs.getLast?.map
      (fun p => p.r2.isSome) = some true :=
  (C2_serverProtocol_misbehaviour_detection 11 (by omega) wCtx (mkServer 11 [1] [2] 0) 3 5
    (InitializeServerMessage 11 wReq1)
    ((ServerProtocol 11 wCtx (mkServer 11 [1] [2] 0) 3 5
      (InitializeServerMessage 11 wReq1)).2) (by rfl)).2 (by decide)

lemma getLastq_eq_getD {α : Type} (l : List α) (d : α) (h : l ≠ []) :
    l.getLast? = some (l.getD (l.length - 1) d) := by
  have hlt : l.length - 1 < l.length := by
    cases l with
    | nil => exact absurd rfl h
    | cons a t => simp
  rw [List.getLast?_eq_getElem?, List.getD_eq_getElem?_getD, List.getElem?_eq_getElem hlt]
  rfl

/-- C4: the client's finalization verifies every hop's chained signature and
every server proof and, when the message is fully processed (`|indexes| = n`,
all hop vectors of that length, at least one hop), returns `tags[n-1]`; when a
hop signature fails to verify it returns an error and no tag; and a returned tag
equals the identity element exactly when the final pipeline tag `tags[n-1]` is
the identity (the protocol-level rejection case). -/
theorem C4_getFinalLinkageTag (q : ℕ) (ctx : ContextEd q) (msg : ServerMessage q)
    (hn : msg.indexes.length = ctx.G.Y.length)
    (ht : msg.tags.length = msg.indexes.length)
    (hp : msg.proofs.length = msg.indexes.length)
    (hsg : msg.sigs.length = msg.indexes.length)
    (hpos : 0 < msg.indexes.length) :
    (verifyHopSigs q ctx msg = true → verifyHopProofsClient q ctx msg = true →
      GetFinalLinkageTag q ctx msg =
        Except.ok (msg.tags.getD (msg.tags.length - 1) 1)) ∧
    (verifyHopSigs q ctx msg = false →
      GetFinalLinkageTag q ctx msg = Except.error DErr.badSignature) ∧
    (∀ t, GetFinalLinkageTag q ctx msg = Except.ok t →
      (t = 1 ↔ msg.tags.getD (msg.tags.length - 1) 1 = 1)) := by
  have hne : msg.tags ≠ [] := by
    intro hnil
    rw [hnil] at ht
    simp at ht
    omega
  have hshape : ¬ ¬ (msg.indexes.length = ctx.G.Y.length ∧
      msg.tags.length = msg.indexes.length ∧ msg.proofs.length = msg.indexes.length ∧
      msg.sigs.length = msg.indexes.length) := not_not_intro ⟨hn, ht, hp, hsg⟩
  have hmain : ∀ hs1 : verifyHopSigs q ctx msg = true,
      ∀ hs2 : verifyHopProofsClient q ctx msg = true,
      GetFinalLinkageTag q ctx msg = Except.ok (msg.tags.getD (msg.tags.length - 1) 1) := by
    intro hs1 hs2
    rw [GetFinalLinkageTag, if_neg hshape, if_neg (not_not_intro hs1),
      if_neg (not_not_intro hs2), getLastq_eq_getD msg.tags 1 hne]
  refine ⟨hmain, ?_, ?_⟩
  · intro hs1
    rw [GetFinalLinkageTag, if_neg hshape, if_pos (by simp [hs1])]
  · intro t hok
    by_cases hs1 : verifyHopSigs q ctx msg = true
    · by_cases hs2 : verifyHopProofsClient q ctx msg = true
      · rw [hmain hs1 hs2] at hok
        simp only [Except.ok.injEq] at hok
        rw [← hok]
      · rw [GetFinalLinkageTag, if_neg hshape, if_neg (not_not_intro hs1),
          if_pos (by simpa using hs2)] at hok
        exact absurd hok (by simp)
    · rw [GetFinalLinkageTag, if_neg hshape, if_pos (by simpa using hs1)] at hok
      exact absurd hok (by simp)

/-- Witness for C4: finalizing the completed witness pipeline run succeeds and
returns its last tag. -/
theorem C4_getFinalLinkageTag_witness :
    GetFinalLinkageTag 11 wCtx wFin1 =
      Except.ok (wFin1.tags.getD (wFin1.tags.length - 1) 1) :=
  (C4_getFinalLinkageTag 11 wCtx wFin1 (by decide) (by decide) (by decide) (by decide)
    (by decide)).1 (by decide) (by decide)

lemma lastTag_of_tags_concat (q : ℕ) (m : ServerMessage q) (l : List (Pt q)) (t : Pt q)
    (h : m.tags = l ++ [t]) : lastTag q m = t := by
  rw [lastTag, h, List.getLast?_concat]

lemma getLast?_tags_eq_lastTag (q : ℕ) (m : ServerMessage q) (h : m.tags ≠ []) :
    m.tags.getLast? = some (lastTag q m) := by
  rw [lastTag]
  cases hg : m.tags.getLast? with
  | none => exact absurd (List.getLast?_eq_none_iff.mp hg) h
  | some t => rfl

lemma mul_scInv_cancel (q : ℕ) [Fact (Nat.Prime q)] (a : ZMod q) (ha : a ≠ 0) :
    a * scInv q a = 1 := by
  have h2 : 2 ≤ q := (Fact.out : Nat.Prime q).two_le
  rw [scInv, ← pow_succ', show q - 2 + 1 = q - 1 by omega]
  exact ZMod.pow_card_sub_one_eq_one ha

lemma prod_mul_prod_scInv (q : ℕ) [Fact (Nat.Prime q)] (l : List (ZMod q))
    (h : (0 : ZMod q) ∉ l) : l.prod * (l.map (scInv q)).prod = 1 := by
  induction l with
  | nil => simp
  | cons a t ih =>
    have ha : a ≠ 0 := fun h0 => h (h0 ▸ List.mem_cons_self a t)
    have ht : (0 : ZMod q) ∉ t := fun h0 => h (List.mem_cons_of_mem a h0)
    rw [List.prod_cons, List.map_cons, List.prod_cons,
      show a * t.prod * (scInv q a * (t.map (scInv q)).prod) =
        a * scInv q a * (t.prod * (t.map (scInv q)).prod) by ring,
      mul_scInv_cancel q a ha, ih ht, one_mul]

lemma runPipeline_honest (q : ℕ) (ctx : ContextEd q) (ys rs : List (ZMod q))
    (vr : ℕ → ZMod q × ZMod q) (order : List ℕ) (m0 F : ServerMessage q)
    (hrun : runPipeline q ctx ys rs vr order m0 = Except.ok F)
    (hhon : ∀ j ∈ order, m0.request.sArray.getD (j + 2) 1 =
      pointMul q (m0.request.sArray.getD (j + 1) 1)
        (hashPC q [pointMul q (m0.request.sArray.getD 0 1) (ys.getD j 0)])) :
    F.request = m0.request ∧ F.tags.length = m0.tags.length + order.length ∧
    lastTag q F = pointMul q (lastTag q m0)
      ((order.map (fun j => rs.getD j 0 *
        scInv q (hashPC q [pointMul q (m0.request.sArray.getD 0 1) (ys.getD j 0)]))).prod) := by
  induction order generalizing m0 with
  | nil =>
    rw [runPipeline] at hrun
    have hF : m0 = F := by simpa using hrun
    subst hF
    simp [pointMul_one]
  | cons j rest ih =>
    rw [runPipeline] at hrun
    split at hrun
    next u m1 heq =>
      have h1 : (ServerProtocol q ctx (mkServer q ys rs j) (vr j).1 (vr j).2 m0).1 =
          Except.ok () := by rw [heq]
      have h2 : (ServerProtocol q ctx (mkServer q ys rs j) (vr j).1 (vr j).2 m0).2 = m1 := by
        rw [heq]
      have hs := ServerProtocol_ok_state q ctx (mkServer q ys rs j) (vr j).1 (vr j).2 m0 h1
      rw [h2] at hs
      have hreq : m1.request = m0.request := by rw [hs]
      have hb : (m0.request.sArray.getD (j + 2) 1 ==
          pointMul q (m0.request.sArray.getD (j + 1) 1)
            (hashPC q [pointMul q (m0.request.sArray.getD 0 1) (ys.getD j 0)])) = true := by
        simpa using hhon j (List.mem_cons_self j rest)
      have htags : m1.tags = m0.tags ++
          [if (m0.request.sArray.getD (j + 2) 1 ==
              pointMul q (m0.request.sArray.getD (j + 1) 1)
                (hashPC q [pointMul q (m0.request.sArray.getD 0 1) (ys.getD j 0)])) = true then
            pointMul q (lastTag q m0)
              (rs.getD j 0 *
                scInv q (hashPC q [pointMul q (m0.request.sArray.getD 0 1) (ys.getD j 0)]))
          else 1] := by
        rw [hs]
        rfl
      rw [hb, if_pos rfl] at htags
      have hlen1 : m1.tags.length = m0.tags.length + 1 := by
        rw [htags]
        simp
      have hlast1 : lastTag q m1 = pointMul q (lastTag q m0)
          (rs.getD j 0 *
            scInv q (hashPC q [pointMul q (m0.request.sArray.getD 0 1) (ys.getD j 0)])) :=
        lastTag_of_tags_concat q m1 m0.tags _ htags
      have hhon' : ∀ k ∈ rest, m1.request.sArray.getD (k + 2) 1 =
          pointMul q (m1.request.sArray.getD (k + 1) 1)
            (hashPC q [pointMul q (m1.request.sArray.getD 0 1) (ys.getD k 0)]) := by
        intro k hk
        rw [hreq]
        exact hhon k (List.mem_cons_of_mem j hk)
      obtain ⟨ih1, ih2, ih3⟩ := ih m1 hrun hhon'
      rw [hreq] at ih1 ih3
      refine ⟨ih1, ?_, ?_⟩
      · rw [ih2, hlen1, List.length_cons]
        omega
      · rw [ih3, hlast1, pointMul_pointMul, List.map_cons, List.prod_cons]
    next e m1 heq => exact absurd hrun (by simp)

lemma honestRun_final (q n : ℕ) [Fact (Nat.Prime q)] (ctx : ContextEd q)
    (ys rs : List (ZMod q)) (i : ℕ) (z : ZMod q) (prf : ClientProof q)
    (vr : ℕ → ZMod q × ZMod q) (order : List ℕ) (F : ServerMessage q)
    (hY : ctx.G.Y.length = n) (hrs : rs.length = n) (hpos : 0 < n)
    (hperm : List.Perm order (List.range n))
    (hrun : runPipeline q ctx ys rs vr order
      (InitializeServerMessage q (honestRequest q ctx i z prf)) = Except.ok F)
    (hhon : ∀ j ∈ order, (honestRequest q ctx i z prf).sArray.getD (j + 2) 1 =
      pointMul q ((honestRequest q ctx i z prf).sArray.getD (j + 1) 1)
        (hashPC q [pointMul q ((honestRequest q ctx i z prf).sArray.getD 0 1) (ys.getD j 0)]))
    (hσ : ∀ Yj ∈ ctx.G.Y, hashSB q (pointMul q Yj z) ≠ 0) :
    F.tags.getLast? = some (pointMul q (ctx.H.getD i 1) rs.prod) := by
  set req := honestRequest q ctx i z prf with hreqdef
  set shared := ctx.G.Y.map (fun Yj => hashSB q (pointMul q Yj z)) with hshdef
  have hshlen : shared.length = n := by rw [hshdef, List.length_map, hY]
  have hsh0 : (0 : ZMod q) ∉ shared := by
    intro h0
    rw [hshdef, List.mem_map] at h0
    obtain ⟨Yj, hmem, heq⟩ := h0
    exact hσ Yj hmem heq
  have hσeq : ∀ j, j < n → hashPC q [pointMul q
      ((InitializeServerMessage q req).request.sArray.getD 0 1) (ys.getD j 0)] =
      shared.getD j 0 := by
    intro j hj
    have hjo : j ∈ order := hperm.mem_iff.mpr (List.mem_range.mpr hj)
    have hjsh : j < shared.length := by omega
    have hcond2 : (CreateRequestPy q ctx i z).2.1.getD (j + 1 + 1) 1 =
        pointMul q ((CreateRequestPy q ctx i z).2.1.getD (j + 1) 1)
          (hashPC q [pointMul q
            ((InitializeServerMessage q req).request.sArray.getD 0 1) (ys.getD j 0)]) :=
      hhon j hjo
    rw [createRequest_S_succ q ctx i z (j + 1) (by omega),
      createRequest_S_succ q ctx i z j (by omega), pointMul_pointMul, ← hshdef] at hcond2
    have hcancel := pointMul_gBase_inj q _ _ hcond2
    rw [List.prod_take_succ shared j hjsh] at hcancel
    have hne : ((shared.take j).prod : ZMod q) ≠ 0 :=
      List.prod_ne_zero (fun h0 => hsh0 (List.take_subset j shared h0))
    rw [List.getD_eq_getElem shared 0 hjsh]
    exact (mul_left_cancel₀ hne hcancel).symm
  obtain ⟨hFreq, hFlen, hFlast⟩ := runPipeline_honest q ctx ys rs vr order
    (InitializeServerMessage q req) F hrun hhon
  have hordlen : order.length = n := by rw [hperm.length_eq, List.length_range]
  have hFne : F.tags ≠ [] := by
    apply List.ne_nil_of_length_pos
    rw [hFlen]
    simp only [InitializeServerMessage, List.length_nil]
    omega
  have hmapeq : order.map (fun j => rs.getD j 0 *
        scInv q (hashPC q
          [pointMul q ((InitializeServerMessage q req).request.sArray.getD 0 1)
            (ys.getD j 0)])) =
      order.map (fun j => rs.getD j 0 * scInv q (shared.getD j 0)) := by
    apply List.map_congr_left
    intro j hj
    have hjn : j < n := List.mem_range.mp (hperm.mem_iff.mp hj)
    rw [hσeq j hjn]
  have hprodperm : (order.map (fun j => rs.getD j 0 * scInv q (shared.getD j 0))).prod =
      ((List.range n).map (fun j => rs.getD j 0 * scInv q (shared.getD j 0))).prod :=
    List.Perm.prod_eq (List.Perm.map _ hperm)
  have hsplit : ((List.range n).map (fun j => rs.getD j 0 * scInv q (shared.getD j 0))).prod =
      ((List.range n).map (fun j => rs.getD j 0)).prod *
        ((List.range n).map (fun j => scInv q (shared.getD j 0))).prod :=
    List.prod_map_mul
  have hrsprod : ((List.range n).map (fun j => rs.getD j 0)).prod = rs.prod := by
    conv_lhs => rw [← hrs, getD_range_map]
  have hshprod : ((List.range n).map (fun j => scInv q (shared.getD j 0))).prod =
      (shared.map (scInv q)).prod := by
    rw [← hshlen, range_map_getD_comp]
  have hT0 : lastTag q (InitializeServerMessage q req) =
      pointMul q (ctx.H.getD i 1) shared.prod := by
    show (CreateRequestPy q ctx i z).1 = pointMul q (ctx.H.getD i 1) shared.prod
    rw [createRequest_T0, createRequest_s, ← hshdef]
  rw [getLast?_tags_eq_lastTag q F hFne, hFlast, hmapeq, hprodperm, hsplit, hrsprod,
    hshprod, hT0, pointMul_pointMul,
    show shared.prod * (rs.prod * (shared.map (scInv q)).prod) =
      rs.prod * (shared.prod * (shared.map (scInv q)).prod) by ring,
    prod_mul_prod_scInv q shared hsh0, mul_one]

/-- C1: linkability of the final tag — for a fixed context and client `i`, any
two complete successful all-honest-branch runs of the protocol (CreateRequest
followed by every server executing ServerProtocol once, in any order), with
ephemeral scalars `z₁` and `z₂`, both end with final linkage tag
`h_i ^ (∏ r_j)`, the product ranging over every server per-round secret; in
particular the two final tags are equal, independently of `z₁` and `z₂`. -/
theorem C1_linkability (q n : ℕ) [Fact (Nat.Prime q)] (ctx : ContextEd q)
    (ys rs : List (ZMod q)) (i : ℕ) (z₁ z₂ : ZMod q) (prf₁ prf₂ : ClientProof q)
    (vr₁ vr₂ : ℕ → ZMod q × ZMod q) (order₁ order₂ : List ℕ) (F₁ F₂ : ServerMessage q)
    (hY : ctx.G.Y.length = n) (hrs : rs.length = n) (hpos : 0 < n)
    (hperm₁ : List.Perm order₁ (List.range n)) (hperm₂ : List.Perm order₂ (List.range n))
    (hrun₁ : runPipeline q ctx ys rs vr₁ order₁
      (InitializeServerMessage q (honestRequest q ctx i z₁ prf₁)) = Except.ok F₁)
    (hrun₂ : runPipeline q ctx ys rs vr₂ order₂
      (InitializeServerMessage q (honestRequest q ctx i z₂ prf₂)) = Except.ok F₂)
    (hhon₁ : ∀ j ∈ order₁, (honestRequest q ctx i z₁ prf₁).sArray.getD (j + 2) 1 =
      pointMul q ((honestRequest q ctx i z₁ prf₁).sArray.getD (j + 1) 1)
        (hashPC q [pointMul q ((honestRequest q ctx i z₁ prf₁).sArray.getD 0 1) (ys.getD j 0)]))
    (hhon₂ : ∀ j ∈ order₂, (honestRequest q ctx i z₂ prf₂).sArray.getD (j + 2) 1 =
      pointMul q ((honestRequest q ctx i z₂ prf₂).sArray.getD (j + 1) 1)
        (hashPC q [pointMul q ((honestRequest q ctx i z₂ prf₂).sArray.getD 0 1) (ys.getD j 0)]))
    (hσ₁ : ∀ Yj ∈ ctx.G.Y, hashSB q (pointMul q Yj z₁) ≠ 0)
    (hσ₂ : ∀ Yj ∈ ctx.G.Y, hashSB q (pointMul q Yj z₂) ≠ 0) :
    F₁.tags.getLast? = some (pointMul q (ctx.H.getD i 1) rs.prod) ∧
    F₂.tags.getLast? = some (pointMul q (ctx.H.getD i 1) rs.prod) ∧
    F₁.tags.getLast? = F₂.tags.getLast? := by
  have hf₁ := honestRun_final q n ctx ys rs i z₁ prf₁ vr₁ order₁ F₁ hY hrs hpos hperm₁
    hrun₁ hhon₁ hσ₁
  have hf₂ := honestRun_final q n ctx ys rs i z₂ prf₂ vr₂ order₂ F₂ hY hrs hpos hperm₂
    hrun₂ hhon₂ hσ₂
  exact ⟨hf₁, hf₂, hf₁.trans hf₂.symm⟩

/-- Witness for C1: the two completed witness pipeline runs, built from the
ephemeral scalars 1 and 4, both finish with the tag `h₀^{r₀}`. -/
theorem C1_linkability_witness :
    wFin1.tags.getLast? = some (pointMul 11 (wCtx.H.getD 0 1) (([2] : List (ZMod 11)).prod)) ∧
    wFin2.tags.getLast? = some (pointMul 11 (wCtx.H.getD 0 1) (([2] : List (ZMod 11)).prod)) ∧
    wFin1.tags.getLast? = wFin2.tags.getLast? :=
  C1_linkability 11 1 wCtx [1] [2] 0 1 4 wPrf1 wPrf2 wVr wVr [0] [0] wFin1 wFin2
    (by decide) (by decide) (by decide) (by decide) (by decide)
    (by decide) (by decide) (by decide) (by decide) (by decide) (by decide)
